import Mathlib

/-!
Verification of `src/kzg_fk.rs` (KZG polynomial commitments with single-point
Feist-Khovratskiy openings over BLS12-381).

Embedding conventions.

The scalar field of the curve is embedded as an arbitrary decidable field `F`
(the concrete instances below use `ZMod 5`).  The pairing groups are embedded
in the exponent: a `G1Element` (resp. `G2Element`) `g^a` is represented by its
exponent `a : F`, so the group generator is `1`, group addition/subtraction is
field addition/subtraction, scalar multiplication `g * tau` is field
multiplication, and the pairing `e(g1^a, g2^b) = gt^(a*b)` is represented by
the product `a * b`.  Since all three groups are cyclic of the same prime
order with a non-degenerate pairing, equality of group elements (and of
pairing outputs) is exactly equality of the representing exponents, so this
embedding is faithful to the group/pairing interface the source uses.

Rust panics (vector-index out of bounds, `usize` subtraction overflow, and
`.unwrap()` on an `Err`) are modelled by `Option`: `none` is a panic.
-/

set_option maxHeartbeats 1000000
set_option linter.unusedVariables false
set_option linter.unusedSectionVars false

/-- Modelled from the spec: the repository module `crate::fft` that defines
`BLS12381Domain` is not under `src/`.  Per the spec, a `Domain` is an
algebraic evaluation domain of size `n` whose points are the powers of a
primitive `n`-th root of unity `ω` of the scalar field. -/
structure BLS12381Domain (F : Type) where
  n : ℕ
  ω : F
  /-- The inverse ω⁻¹ of the root, stored precomputed (the inverse transform
  needs it; storing it keeps the model executable). -/
  ωInv : F
  /-- The inverse n⁻¹ of the domain size in the scalar field, stored
  precomputed for the same reason. -/
  nInv : F
  deriving DecidableEq

variable {F : Type} [Field F] [DecidableEq F]

/-- Modelled from the spec: `Domain::element(i)` is "the i-th domain point /
root of unity", i.e. `ω ^ i`. -/
def BLS12381Domain.element (d : BLS12381Domain F) (i : ℕ) : F :=
  d.ω ^ i

/-- Evaluation of a (low-degree-first) coefficient list, Horner style. -/
def evalPoly : List F → F → F
  | [], _ => 0
  | c :: t, x => c + x * evalPoly t x

/-- Modelled from the spec: `Domain::inverse_transform` (the `ifft` method) maps
a sequence of evaluations to "coefficients c0..c_{n-1} such that the domain's
forward transform of `poly` reproduces `v`", i.e. the inverse discrete Fourier
transform: coefficient `j` is `n⁻¹ * Σ_k v_k ω^(-k*j)`.  It is
length-preserving ("sequence of n scalars -> sequence of n scalars"). -/
def BLS12381Domain.ifft (d : BLS12381Domain F) (v : List F) : List F :=
  (List.range v.length).map fun j =>
    d.nInv * ∑ k ∈ Finset.range v.length, v.getD k 0 * d.ωInv ^ (k * j)

/-- Exponent of `G1Element::generator()`. -/
def g1Gen (F : Type) [Field F] : F := 1

/-- Exponent of `G2Element::generator()`. -/
def g2Gen (F : Type) [Field F] : F := 1

/-- Exponent model of the pairing `e(g1^a, g2^b) = gt^(a*b)`. -/
def gtPairing (a b : F) : F := a * b

/-- Sum `Σ scalars[i] * bases[i]` over two lists (exponent model of a
multi-scalar multiplication with matching lengths). -/
def msmSum : List F → List F → F
  | a :: s, b :: g => a * b + msmSum s g
  | _, _ => 0

/-- `G1Element::multi_scalar_mul` in the exponent model.  Per the spec's
interface description it takes a "sequence of scalars × matching sequence of
group elements"; on mismatched lengths the library call returns an error,
which the source `.unwrap()`s into a panic, modelled here by `none`. -/
def msm (scalars bases : List F) : Option F :=
  if scalars.length = bases.length then some (msmSum scalars bases) else none

/-- `itertools::iterate(x, f).take(n).collect()`: the list
`[x, f x, f (f x), ...]` of length `n`. -/
def iterateTake (f : F → F) (x : F) : ℕ → List F
  | 0 => []
  | k + 1 => x :: iterateTake f (f x) k

/-- The `KZGFK` struct of the source: an evaluation domain together with the
powers of the secret `tau` in both pairing groups (exponent model). -/
structure KZGFK (F : Type) where
  domain : BLS12381Domain F
  tau_powers_g1 : List F
  tau_powers_g2 : List F
  deriving DecidableEq

/-- `KZGFK::new(n)`.  The external behaviours are passed in explicitly: the
Domain constructor `domainNew` (the `BLS12381Domain::new(n)?` call, which may
fail) and the randomly sampled secret `tau`.  On a domain failure the error is
propagated; otherwise the two tau-power tables are built by iterating
multiplication by `tau` starting from the respective generators. -/
def KZGFK.new (domainNew : ℕ → Option (BLS12381Domain F)) (tau : F) (n : ℕ) :
    Option (KZGFK F) :=
  (domainNew n).map fun domain =>
    ⟨domain, iterateTake (fun g => g * tau) (g1Gen F) n,
      iterateTake (fun g => g * tau) (g2Gen F) n⟩

/-- `KZGFK::commit`: inverse transform of `v`, then multi-scalar
multiplication against `tau_powers_g1` (the `.unwrap()` is `none` on a length
mismatch). -/
def KZGFK.commit (fk : KZGFK F) (v : List F) : Option F :=
  msm (fk.domain.ifft v) fk.tau_powers_g1

/-- The downward quotient recurrence of `KZGFK::open`:
`quotient_coeffs[poly.len()-2] = poly[poly.len()-1]` and, going down,
`quotient_coeffs[j] = poly[j+1] + quotient_coeffs[j+1] * z`.  The first
argument counts the remaining iterations (`poly.length - 2 - j` at entry
`j`), making the recursion structural. -/
def quotientCoeffAux (poly : List F) (z : F) : ℕ → ℕ → F
  | 0, _ => poly.getD (poly.length - 1) 0
  | d + 1, j => poly.getD (j + 1) 0 + quotientCoeffAux poly z d (j + 1) * z

/-- Entry `j` of the `quotient_coeffs` vector built by `KZGFK::open`. -/
def quotientCoeff (poly : List F) (z : F) (j : ℕ) : F :=
  quotientCoeffAux poly z (poly.length - 2 - j) j

/-- `KZGFK::open` (named `openProof` because `open` is reserved in Lean).
`vec![Scalar::zero(); poly.len()-1]` and the write to
`quotient_coeffs[poly.len() - 2]` panic (usize underflow / index out of
bounds) when `poly.len() < 2`; the slice `&tau_powers_g1[..quotient_coeffs.len()]`
panics when the quotient is longer than the table; both are `none`. -/
def KZGFK.openProof (fk : KZGFK F) (v : List F) (index : ℕ) : Option F :=
  let poly := fk.domain.ifft v
  if 2 ≤ poly.length then
    let q := (List.range (poly.length - 1)).map
      (quotientCoeff poly (fk.domain.element index))
    if q.length ≤ fk.tau_powers_g1.length then
      msm q (fk.tau_powers_g1.take q.length)
    else none
  else none

/-- `KZGFK::verify`: the pairing check
`e(commitment - tau_powers_g1[0] * v_i, tau_powers_g2[0]) ==
 e(open_i, tau_powers_g2[1] - tau_powers_g2[0] * domain.element(index))`.
The accesses `tau_powers_g1[0]`, `tau_powers_g2[0]` and `tau_powers_g2[1]`
panic (= `none`) when the tables are too short. -/
def KZGFK.verify (fk : KZGFK F) (index : ℕ) (v_i c open_i : F) : Option Bool :=
  if 1 ≤ fk.tau_powers_g1.length ∧ 2 ≤ fk.tau_powers_g2.length then
    let lhs := c - fk.tau_powers_g1.getD 0 0 * v_i
    let rhs := fk.tau_powers_g2.getD 1 0 -
      fk.tau_powers_g2.getD 0 0 * fk.domain.element index
    some (decide (gtPairing lhs (fk.tau_powers_g2.getD 0 0) = gtPairing open_i rhs))
  else none

/-- `KZGFK::update`: takes `&mut commitment` and returns `*commitment`.  The
result triple is (the `&self` receiver after the call, the referenced
commitment cell after the call, the returned value). -/
def KZGFK.update (fk : KZGFK F) (commitment : F) (index : ℕ)
    (old_v_i new_v_i : F) : KZGFK F × F × F :=
  (fk, commitment, commitment)

/-- `KZGFK::update_open_i`: takes `&mut open` and returns `*open`, same
modelling as `KZGFK.update`. -/
def KZGFK.update_open_i (fk : KZGFK F) (opn : F) (index : ℕ)
    (old_v_i new_v_i : F) : KZGFK F × F × F :=
  (fk, opn, opn)

/-- The list `[evalPoly l z, evalPoly (l.drop 1) z, ...]` of the evaluations at
`z` of the successive suffixes of `l`; the mathematical closed form of the
quotient list built by `KZGFK::open` on `poly = head :: l`. -/
def suffixEvals (z : F) : List F → List F
  | [] => []
  | c :: t => (c + z * evalPoly t z) :: suffixEvals z t

instance : Fact (Nat.Prime 5) := ⟨by norm_num⟩

/-- Modelled from the spec: a concrete instance of the external Domain
constructor over the 5-element field, used for concrete evaluations.  It
accepts the power-of-two sizes that have a primitive root of unity in
`ZMod 5` (`1`, `2` and `4`, with primitive roots `1`, `4` and `2`) and
rejects every other size. -/
def domainNewFive : ℕ → Option (BLS12381Domain (ZMod 5))
  | 1 => some ⟨1, 1, 1, 1⟩
  | 2 => some ⟨2, 4, 4, 3⟩
  | 4 => some ⟨4, 2, 3, 4⟩
  | _ => none

/-- The SRS produced by `KZGFK.new domainNewFive 3 1`. -/
def fkOne : KZGFK (ZMod 5) := ⟨⟨1, 1, 1, 1⟩, [1], [1]⟩

/-- The SRS produced by `KZGFK.new domainNewFive 3 2` (tau = 3). -/
def fkTwo : KZGFK (ZMod 5) := ⟨⟨2, 4, 4, 3⟩, [1, 3], [1, 3]⟩

/-- `fkTwo` with a different (garbage) `tau_powers_g2` table: `commit` and
`openProof` never read that field. -/
def fkTwoAlt : KZGFK (ZMod 5) := ⟨⟨2, 4, 4, 3⟩, [1, 3], [0, 0]⟩

/-- The SRS produced by `KZGFK.new domainNewFive 3 4` (tau = 3, so the
tau powers mod 5 are 1, 3, 4, 2). -/
def fkFour : KZGFK (ZMod 5) := ⟨⟨4, 2, 3, 4⟩, [1, 3, 4, 2], [1, 3, 4, 2]⟩

theorem iterateTake_length (f : F → F) : ∀ (n : ℕ) (x : F),
    (iterateTake f x n).length = n := by
  intro n
  induction n with
  | zero => intro x; rfl
  | succ k ih => intro x; simp [iterateTake, ih]

theorem iterateTake_getD (tau : F) : ∀ (n i : ℕ) (x : F), i < n →
    (iterateTake (fun g => g * tau) x n).getD i 0 = x * tau ^ i := by
  intro n
  induction n with
  | zero => intro i x h; omega
  | succ k ih =>
    intro i x h
    cases i with
    | zero => simp [iterateTake]
    | succ j =>
      have := ih j (x * tau) (by omega)
      simp only [iterateTake, List.getD_cons_succ, this]
      ring

theorem iterateTake_take (f : F → F) : ∀ (n k : ℕ) (x : F), k ≤ n →
    (iterateTake f x n).take k = iterateTake f x k := by
  intro n
  induction n with
  | zero => intro k x h; interval_cases k; rfl
  | succ m ih =>
    intro k x h
    cases k with
    | zero => rfl
    | succ j => simp [iterateTake, ih j (f x) (by omega)]

theorem msmSum_iterateTake (tau : F) : ∀ (p : List F) (x : F) (n : ℕ),
    p.length = n →
    msmSum p (iterateTake (fun g => g * tau) x n) = x * evalPoly p tau := by
  intro p
  induction p with
  | nil =>
    intro x n h
    cases n with
    | zero => simp [msmSum, iterateTake, evalPoly]
    | succ m => simp at h
  | cons a t ih =>
    intro x n h
    cases n with
    | zero => simp at h
    | succ m =>
      have hm : t.length = m := by simpa using h
      simp only [iterateTake, msmSum, evalPoly, ih (x * tau) m hm]
      ring

theorem getD_range_map (f : ℕ → F) (m j : ℕ) (h : j < m) :
    ((List.range m).map f).getD j 0 = f j := by
  rw [List.getD_eq_getElem _ _ (by simpa using h)]
  simp

theorem evalPoly_eq_sum : ∀ (p : List F) (x : F),
    evalPoly p x = ∑ j ∈ Finset.range p.length, p.getD j 0 * x ^ j := by
  intro p
  induction p with
  | nil => intro x; simp [evalPoly]
  | cons a t ih =>
    intro x
    rw [evalPoly, ih, List.length_cons, Finset.sum_range_succ']
    simp only [List.getD_cons_succ, List.getD_cons_zero, pow_zero, mul_one,
      pow_succ, Finset.mul_sum]
    rw [add_comm]
    congr 1
    refine Finset.sum_congr rfl fun j hj => by ring

theorem evalPoly_drop : ∀ (l : List F) (k : ℕ) (x : F),
    evalPoly (l.drop k) x = l.getD k 0 + x * evalPoly (l.drop (k + 1)) x := by
  intro l
  induction l with
  | nil => intro k x; simp [evalPoly]
  | cons c t ih =>
    intro k x
    cases k with
    | zero => simp [evalPoly]
    | succ m => simpa using ih m x

theorem evalPoly_drop_of_le (l : List F) (k : ℕ) (x : F) (h : l.length ≤ k) :
    evalPoly (l.drop k) x = 0 := by
  rw [List.drop_eq_nil_of_le h]; rfl

theorem ifft_length (d : BLS12381Domain F) (v : List F) :
    (d.ifft v).length = v.length := by
  simp [BLS12381Domain.ifft]

theorem ifft_getD (d : BLS12381Domain F) (v : List F) (j : ℕ) (h : j < v.length) :
    (d.ifft v).getD j 0 =
      d.nInv * ∑ k ∈ Finset.range v.length, v.getD k 0 * d.ωInv ^ (k * j) := by
  rw [BLS12381Domain.ifft, getD_range_map _ _ _ h]

theorem quotientCoeff_base (poly : List F) (z : F) (j : ℕ)
    (h : poly.length - 2 ≤ j) :
    quotientCoeff poly z j = poly.getD (poly.length - 1) 0 := by
  rw [quotientCoeff, Nat.sub_eq_zero_of_le h, quotientCoeffAux]

theorem quotientCoeff_step (poly : List F) (z : F) (j : ℕ)
    (h : j < poly.length - 2) :
    quotientCoeff poly z j =
      poly.getD (j + 1) 0 + quotientCoeff poly z (j + 1) * z := by
  have hd : poly.length - 2 - j = (poly.length - 2 - (j + 1)) + 1 := by omega
  rw [quotientCoeff, hd, quotientCoeffAux, quotientCoeff]

theorem quotientCoeff_eq_drop (poly : List F) (z : F) :
    ∀ j, j < poly.length - 1 →
      quotientCoeff poly z j = evalPoly (poly.drop (j + 1)) z := by
  have key : ∀ (b j : ℕ), poly.length - 2 - j ≤ b → j < poly.length - 1 →
      quotientCoeff poly z j = evalPoly (poly.drop (j + 1)) z := by
    intro b
    induction b with
    | zero =>
      intro j hb hj
      have hbase : poly.length - 2 ≤ j := by omega
      rw [quotientCoeff_base poly z j hbase, evalPoly_drop]
      have hj1 : j + 1 = poly.length - 1 := by omega
      rw [evalPoly_drop_of_le poly (j + 1 + 1) z (by omega), hj1]
      ring
    | succ m ih =>
      intro j hb hj
      by_cases hbase : poly.length - 2 ≤ j
      · rw [quotientCoeff_base poly z j hbase, evalPoly_drop]
        have hj1 : j + 1 = poly.length - 1 := by omega
        rw [evalPoly_drop_of_le poly (j + 1 + 1) z (by omega), hj1]
        ring
      · have hstep : j < poly.length - 2 := by omega
        rw [quotientCoeff_step poly z j hstep,
          ih (j + 1) (by omega) (by omega), evalPoly_drop poly (j + 1) z]
        ring
  intro j hj
  exact key (poly.length - 2 - j) j le_rfl hj

theorem suffixEvals_length (z : F) : ∀ l : List F,
    (suffixEvals z l).length = l.length := by
  intro l
  induction l with
  | nil => rfl
  | cons c t ih => simp [suffixEvals, ih]

theorem suffixEvals_getD (z : F) : ∀ (l : List F) (j : ℕ), j < l.length →
    (suffixEvals z l).getD j 0 = evalPoly (l.drop j) z := by
  intro l
  induction l with
  | nil => intro j h; simp at h
  | cons c t ih =>
    intro j h
    cases j with
    | zero => simp [suffixEvals, evalPoly]
    | succ m => simpa [suffixEvals] using ih m (by simpa using h)

theorem suffixEvals_mul_sub (x z : F) : ∀ t : List F,
    (x - z) * evalPoly (suffixEvals z t) x =
      x * evalPoly t x - z * evalPoly t z := by
  intro t
  induction t with
  | nil => simp [suffixEvals, evalPoly]
  | cons c t ih =>
    simp only [suffixEvals, evalPoly]
    linear_combination x * ih

theorem quotientList_eq_suffixEvals (poly : List F) (z : F) :
    (List.range (poly.length - 1)).map (quotientCoeff poly z) =
      suffixEvals z (poly.drop 1) := by
  apply List.ext_getElem
  · simp [suffixEvals_length]
  · intro j h1 h2
    have hj : j < poly.length - 1 := by simpa using h1
    have hmap : ((List.range (poly.length - 1)).map (quotientCoeff poly z)).getD j 0
        = quotientCoeff poly z j := getD_range_map _ _ _ hj
    have hsfx : (suffixEvals z (poly.drop 1)).getD j 0
        = evalPoly ((poly.drop 1).drop j) z := by
      apply suffixEvals_getD
      simpa using hj
    rw [← List.getD_eq_getElem _ 0, ← List.getD_eq_getElem _ 0, hmap, hsfx,
      List.drop_drop, quotientCoeff_eq_drop poly z j hj]
    congr 2
    omega

theorem geom_sum_eq_zero (x : F) (n : ℕ) (hxn : x ^ n = 1) (hx : x ≠ 1) :
    ∑ j ∈ Finset.range n, x ^ j = 0 := by
  have h := geom_sum_mul x n
  rw [hxn, sub_self] at h
  rcases mul_eq_zero.mp h with h0 | h0
  · exact h0
  · exact absurd (sub_eq_zero.mp h0) hx

theorem root_pow_inj (ω : F) (n : ℕ)
    (hω2 : ∀ m, m < n → 0 < m → ω ^ m ≠ 1)
    (hω0 : ω ≠ 0) :
    ∀ i k, i < n → k < n → ω ^ i = ω ^ k → i = k := by
  have half : ∀ i k, i < n → k < n → i < k → ω ^ i = ω ^ k → False := by
    intro i k hi hk hik heq
    have hsplit : ω ^ k = ω ^ i * ω ^ (k - i) := by
      rw [← pow_add]
      congr 1
      omega
    have hpi : ω ^ i ≠ 0 := pow_ne_zero i hω0
    have hone : ω ^ (k - i) = 1 := by
      have : ω ^ i * ω ^ (k - i) = ω ^ i * 1 := by
        rw [mul_one, ← hsplit, heq]
      exact mul_left_cancel₀ hpi this
    exact hω2 (k - i) (by omega) (by omega) hone
  intro i k hi hk heq
  rcases Nat.lt_trichotomy i k with h | h | h
  · exact absurd (half i k hi hk h heq) (by simp)
  · exact h
  · exact absurd (half k i hk hi h heq.symm) (by simp)

theorem ifft_interpolates (d : BLS12381Domain F) (v : List F) (i : ℕ)
    (hω1 : d.ω ^ v.length = 1)
    (hω2 : ∀ m, m < v.length → 0 < m → d.ω ^ m ≠ 1)
    (hwi : d.ω * d.ωInv = 1)
    (hni : (v.length : F) * d.nInv = 1)
    (hi : i < v.length) :
    evalPoly (d.ifft v) (d.ω ^ i) = v.getD i 0 := by
  have hwInv : d.ωInv = d.ω⁻¹ := eq_inv_of_mul_eq_one_right hwi
  have hnInv : d.nInv = ((v.length : ℕ) : F)⁻¹ := eq_inv_of_mul_eq_one_right hni
  have hn : ((v.length : ℕ) : F) ≠ 0 := left_ne_zero_of_mul_eq_one hni
  set n := v.length with hnv
  set ω := d.ω with hwd
  have hnpos : 0 < n := by omega
  have hω0 : ω ≠ 0 := by
    intro h0
    rw [h0, zero_pow (by omega)] at hω1
    exact zero_ne_one hω1
  rw [evalPoly_eq_sum, ifft_length]
  have hterm : ∀ j ∈ Finset.range n,
      (d.ifft v).getD j 0 * (ω ^ i) ^ j =
        (n : F)⁻¹ * ∑ k ∈ Finset.range n,
          v.getD k 0 * (ω ^ i * ω⁻¹ ^ k) ^ j := by
    intro j hj
    rw [ifft_getD d v j (Finset.mem_range.mp hj), hwInv, hnInv, mul_assoc,
      Finset.sum_mul, ← hnv]
    congr 1
    refine Finset.sum_congr rfl fun k hk => ?_
    rw [mul_pow, pow_mul]
    ring
  rw [Finset.sum_congr rfl hterm, ← Finset.mul_sum, Finset.sum_comm]
  have hinner : ∀ k ∈ Finset.range n,
      (∑ j ∈ Finset.range n, v.getD k 0 * (ω ^ i * ω⁻¹ ^ k) ^ j) =
        v.getD k 0 * ∑ j ∈ Finset.range n, (ω ^ i * ω⁻¹ ^ k) ^ j := by
    intro k hk
    rw [Finset.mul_sum]
  rw [Finset.sum_congr rfl hinner]
  have hzero : ∀ k ∈ Finset.range n, k ≠ i →
      v.getD k 0 * ∑ j ∈ Finset.range n, (ω ^ i * ω⁻¹ ^ k) ^ j = 0 := by
    intro k hk hki
    have hkn : k < n := Finset.mem_range.mp hk
    have hxn : (ω ^ i * ω⁻¹ ^ k) ^ n = 1 := by
      rw [mul_pow, ← pow_mul, ← pow_mul, mul_comm i n, mul_comm k n,
        pow_mul, pow_mul, inv_pow, hω1, inv_one, one_pow, one_pow, mul_one]
    have hx1 : ω ^ i * ω⁻¹ ^ k ≠ 1 := by
      intro h1
      have hkz : ω ^ k ≠ 0 := pow_ne_zero k hω0
      have : ω ^ i = ω ^ k := by
        have h2 : ω ^ i * (ω ^ k)⁻¹ = 1 := by rwa [← inv_pow]
        field_simp at h2
        exact h2
      exact hki (root_pow_inj ω n hω2 hω0 k i hkn hi this.symm)
    rw [geom_sum_eq_zero _ n hxn hx1, mul_zero]
  rw [Finset.sum_eq_single_of_mem i (Finset.mem_range.mpr hi) hzero]
  have hxi : ω ^ i * ω⁻¹ ^ i = 1 := by
    rw [inv_pow, mul_inv_cancel₀ (pow_ne_zero i hω0)]
  rw [hxi]
  simp only [one_pow, Finset.sum_const, Finset.card_range, nsmul_eq_mul,
    mul_one]
  field_simp

theorem new_inv (domainNew : ℕ → Option (BLS12381Domain F)) (tau : F)
    (n : ℕ) (fk : KZGFK F) (h : KZGFK.new domainNew tau n = some fk) :
    domainNew n = some fk.domain ∧
    fk.tau_powers_g1 = iterateTake (fun g => g * tau) (g1Gen F) n ∧
    fk.tau_powers_g2 = iterateTake (fun g => g * tau) (g2Gen F) n := by
  cases hd : domainNew n with
  | none => rw [KZGFK.new, hd] at h; exact absurd h (by simp)
  | some d =>
    rw [KZGFK.new, hd, Option.map_some'] at h
    have h2 := Option.some_injective _ h
    subst h2
    exact ⟨rfl, rfl, rfl⟩

/-- Claim C4: after a successful `setup(n)` there is a single scalar tau (the
sampled one) with `tau_powers_g1[i] = generator_g1 * tau^i` and
`tau_powers_g2[i] = generator_g2 * tau^i` for every `i < n`, both sequences
have length exactly `n`, and each element is the previous one multiplied by
tau, starting from the generator. -/
theorem kzgfk_new_tau_powers (domainNew : ℕ → Option (BLS12381Domain F))
    (tau : F) (n : ℕ) (fk : KZGFK F)
    (h : KZGFK.new domainNew tau n = some fk) :
    fk.tau_powers_g1.length = n ∧
    fk.tau_powers_g2.length = n ∧
    (∀ i, i < n → fk.tau_powers_g1.getD i 0 = g1Gen F * tau ^ i) ∧
    (∀ i, i < n → fk.tau_powers_g2.getD i 0 = g2Gen F * tau ^ i) ∧
    (0 < n → fk.tau_powers_g1.getD 0 0 = g1Gen F) ∧
    (0 < n → fk.tau_powers_g2.getD 0 0 = g2Gen F) ∧
    (∀ i, i + 1 < n →
      fk.tau_powers_g1.getD (i + 1) 0 = fk.tau_powers_g1.getD i 0 * tau) ∧
    (∀ i, i + 1 < n →
      fk.tau_powers_g2.getD (i + 1) 0 = fk.tau_powers_g2.getD i 0 * tau) := by
  obtain ⟨-, h1, h2⟩ := new_inv domainNew tau n fk h
  rw [h1, h2]
  refine ⟨iterateTake_length _ n _, iterateTake_length _ n _,
    fun i hi => iterateTake_getD tau n i _ hi,
    fun i hi => iterateTake_getD tau n i _ hi, ?_, ?_, ?_, ?_⟩
  · intro hn
    rw [iterateTake_getD tau n 0 _ hn, pow_zero, mul_one]
  · intro hn
    rw [iterateTake_getD tau n 0 _ hn, pow_zero, mul_one]
  · intro i hi
    rw [iterateTake_getD tau n (i + 1) _ hi,
      iterateTake_getD tau n i _ (by omega), pow_succ]
    ring
  · intro i hi
    rw [iterateTake_getD tau n (i + 1) _ hi,
      iterateTake_getD tau n i _ (by omega), pow_succ]
    ring

/-- Claim C5: `setup(n)` fails (returning no SRS) exactly when the Domain
constructor rejects `n`, and succeeds for every `n` the Domain accepts. -/
theorem kzgfk_new_err_iff_domain_err
    (domainNew : ℕ → Option (BLS12381Domain F)) (tau : F) (n : ℕ) :
    (KZGFK.new domainNew tau n).isSome = (domainNew n).isSome := by
  cases hd : domainNew n with
  | none => rw [KZGFK.new, hd]; rfl
  | some d => rw [KZGFK.new, hd]; rfl

/-- Claim C6: the stub operations `update` and `update_open_i` return their
input group element unchanged, leave the value behind the mutable reference
unchanged, and do not touch the SRS. -/
theorem kzgfk_update_stubs_identity (fk : KZGFK F) (c w : F) (index : ℕ)
    (old_v_i new_v_i : F) :
    fk.update c index old_v_i new_v_i = (fk, c, c) ∧
    fk.update_open_i w index old_v_i new_v_i = (fk, w, w) :=
  ⟨rfl, rfl⟩

/-- Claim C2: against an SRS produced by `setup(n)` with `n ≥ 2`,
`tau_powers_g2[0]` is the plain G2 generator and `verify` accepts exactly when
`e(commitment - tau_powers_g1[0]*v_i, tau_powers_g2[0])` equals
`e(open_i, tau_powers_g2[1] - tau_powers_g2[0]*z)` with
`z = domain.element(index)`. -/
theorem kzgfk_verify_pairing_check
    (domainNew : ℕ → Option (BLS12381Domain F)) (tau : F) (n : ℕ)
    (fk : KZGFK F) (h : KZGFK.new domainNew tau n = some fk) (hn : 2 ≤ n)
    (index : ℕ) (v_i c open_i : F) :
    fk.tau_powers_g2.getD 0 0 = g2Gen F ∧
    (fk.verify index v_i c open_i = some true ↔
      gtPairing (c - fk.tau_powers_g1.getD 0 0 * v_i)
          (fk.tau_powers_g2.getD 0 0) =
        gtPairing open_i
          (fk.tau_powers_g2.getD 1 0 -
            fk.tau_powers_g2.getD 0 0 * fk.domain.element index)) := by
  obtain ⟨-, h1, h2⟩ := new_inv domainNew tau n fk h
  have hl1 : fk.tau_powers_g1.length = n := by
    rw [h1]; exact iterateTake_length _ n _
  have hl2 : fk.tau_powers_g2.length = n := by
    rw [h2]; exact iterateTake_length _ n _
  constructor
  · rw [h2, iterateTake_getD tau n 0 _ (by omega), pow_zero, mul_one]
  · rw [KZGFK.verify, if_pos ⟨by omega, by omega⟩]
    simp only [Option.some_inj, decide_eq_true_eq]

/-- Claim C7 counterexample: `setup(1)` succeeds (size 1 is a power of two the
Domain accepts), and against that SRS `verify` reads `tau_powers_g2[1]` out of
bounds and panics instead of returning a boolean. -/
theorem kzgfk_verify_size_one_panics :
    KZGFK.new domainNewFive 3 1 = some fkOne ∧
    fkOne.verify 0 0 0 0 = none := by
  constructor
  · rfl
  · rfl

/-- Claim C7 (amended): against any SRS whose G1 table is non-empty and whose
G2 table has at least two entries (every SRS of domain size at least 2),
`verify` returns a boolean for every index, claimed value, commitment and
proof, without failing. -/
theorem kzgfk_verify_total_on_valid_srs (fk : KZGFK F)
    (h1 : 1 ≤ fk.tau_powers_g1.length) (h2 : 2 ≤ fk.tau_powers_g2.length)
    (index : ℕ) (v_i c open_i : F) :
    ∃ b, fk.verify index v_i c open_i = some b := by
  rw [KZGFK.verify, if_pos ⟨h1, h2⟩]
  exact ⟨_, rfl⟩

/-- Claim C8 counterexample: against the size-2 SRS, `open` called with
`index == n` (= 2, one past the end) is not rejected: it succeeds and returns
exactly the proof for index 0, because `domain.element(2) = ω² = 1 =
domain.element(0)`. -/
theorem kzgfk_open_index_n_wraps :
    (fkTwo.openProof [1, 2] 2).isSome = true ∧
    fkTwo.openProof [1, 2] 2 = fkTwo.openProof [1, 2] 0 := by
  constructor
  · decide
  · decide

/-- Claim C8 (amended): the preconditions are not checked explicitly.
`commit` with a vector whose length differs from the domain size fails only
through the multi-scalar multiplication's length mismatch, whose error the
source unwraps into a panic rather than an explicit error return; and `open`
with `index == n` is not rejected at all: `domain.element(n) =
domain.element(0)`, so it silently returns the index-0 proof. -/
theorem kzgfk_precondition_failures
    (domainNew : ℕ → Option (BLS12381Domain F)) (tau : F) (n : ℕ)
    (fk : KZGFK F) (h : KZGFK.new domainNew tau n = some fk)
    (hω : fk.domain.ω ^ n = 1) :
    (∀ v : List F, v.length ≠ n → fk.commit v = none) ∧
    (∀ v : List F, fk.openProof v n = fk.openProof v 0) := by
  obtain ⟨-, h1, -⟩ := new_inv domainNew tau n fk h
  have hl1 : fk.tau_powers_g1.length = n := by
    rw [h1]; exact iterateTake_length _ n _
  constructor
  · intro v hv
    have hc : ¬((fk.domain.ifft v).length = fk.tau_powers_g1.length) := by
      rw [ifft_length, hl1]; exact hv
    rw [KZGFK.commit, msm, if_neg hc]
  · intro v
    have he : fk.domain.element n = fk.domain.element 0 := by
      rw [BLS12381Domain.element, BLS12381Domain.element, pow_zero, hω]
    simp only [KZGFK.openProof, he]

/-- Claim C9: `commit` and `open` are deterministic pure functions of the SRS
and their arguments: their result only depends on the SRS components they read
(the domain and the G1 tau powers), so two calls on SRS values that agree
there return equal results. -/
theorem kzgfk_commit_open_deterministic (fk fk2 : KZGFK F)
    (hd : fk.domain = fk2.domain)
    (h1 : fk.tau_powers_g1 = fk2.tau_powers_g1) :
    (∀ v : List F, fk.commit v = fk2.commit v) ∧
    (∀ (v : List F) (index : ℕ),
      fk.openProof v index = fk2.openProof v index) := by
  constructor
  · intro v
    rw [KZGFK.commit, KZGFK.commit, hd, h1]
  · intro v index
    rw [KZGFK.openProof, KZGFK.openProof, hd, h1]

/-- Claim C10: against an SRS of domain size 1, `open` called with a
(size-matching) length-1 vector panics for every index (the write to
`quotient_coeffs[poly.len() - 2]` underflows); for every size `n ≥ 2`, a
length-`n` vector and an index below `n`, all of `open`'s internal indexing
stays in bounds and it returns a proof. -/
theorem kzgfk_open_size_one_vs_ge_two
    (domainNew : ℕ → Option (BLS12381Domain F)) (tau : F) (n : ℕ)
    (fk : KZGFK F) (h : KZGFK.new domainNew tau n = some fk) :
    (n = 1 → ∀ v : List F, v.length = 1 → ∀ index,
      fk.openProof v index = none) ∧
    (2 ≤ n → ∀ v : List F, v.length = n → ∀ index, index < n →
      (fk.openProof v index).isSome = true) := by
  obtain ⟨-, h1, -⟩ := new_inv domainNew tau n fk h
  have hl1 : fk.tau_powers_g1.length = n := by
    rw [h1]; exact iterateTake_length _ n _
  constructor
  · intro hn1 v hv index
    have hp : ¬(2 ≤ (fk.domain.ifft v).length) := by
      rw [ifft_length, hv]; omega
    simp only [KZGFK.openProof]
    rw [if_neg hp]
  · intro hn2 v hv index hidx
    have hp : (fk.domain.ifft v).length = n := by rw [ifft_length, hv]
    simp only [KZGFK.openProof]
    rw [if_pos (by omega : 2 ≤ (fk.domain.ifft v).length)]
    have hq : ((List.range ((fk.domain.ifft v).length - 1)).map
        (quotientCoeff (fk.domain.ifft v) (fk.domain.element index))).length
        = n - 1 := by
      simp [hp]
    rw [if_pos (by omega : ((List.range ((fk.domain.ifft v).length - 1)).map
        (quotientCoeff (fk.domain.ifft v) (fk.domain.element index))).length
        ≤ fk.tau_powers_g1.length)]
    rw [msm, if_pos]
    · rfl
    · rw [List.length_take, hq, hl1]
      omega

/-- Claim C3: for `n ≥ 2`, a length-`n` vector and an index below `n`, `open`
computes `poly` as the domain inverse transform of `v` and builds a quotient
of length `n-1` with `quotient[n-2] = poly[n-1]` and, for `j` from `n-3` down
to `0`, `quotient[j] = poly[j+1] + quotient[j+1] * z` where
`z = domain.element(index)`, and returns the multi-scalar multiplication of
this quotient against the first `n-1` entries of `tau_powers_g1`. -/
theorem kzgfk_open_quotient_recurrence
    (domainNew : ℕ → Option (BLS12381Domain F)) (tau : F) (n : ℕ)
    (fk : KZGFK F) (h : KZGFK.new domainNew tau n = some fk) (hn : 2 ≤ n)
    (v : List F) (hv : v.length = n) (index : ℕ) (hidx : index < n) :
    ∃ q : List F,
      q.length = n - 1 ∧
      q.getD (n - 2) 0 = (fk.domain.ifft v).getD (n - 1) 0 ∧
      (∀ j, j + 3 ≤ n → q.getD j 0 =
        (fk.domain.ifft v).getD (j + 1) 0 +
          q.getD (j + 1) 0 * fk.domain.element index) ∧
      fk.openProof v index = msm q (fk.tau_powers_g1.take (n - 1)) := by
  obtain ⟨-, h1, -⟩ := new_inv domainNew tau n fk h
  have hl1 : fk.tau_powers_g1.length = n := by
    rw [h1]; exact iterateTake_length _ n _
  have hp : (fk.domain.ifft v).length = n := by rw [ifft_length, hv]
  set poly := fk.domain.ifft v with hpoly
  set z := fk.domain.element index with hz
  refine ⟨(List.range (poly.length - 1)).map (quotientCoeff poly z),
    ?_, ?_, ?_, ?_⟩
  · simp [hp]
  · rw [hp, getD_range_map _ _ _ (by omega : n - 2 < n - 1),
      quotientCoeff_base poly z _ (by omega), hp]
  · intro j hj
    rw [hp, getD_range_map _ _ _ (by omega : j < n - 1),
      getD_range_map _ _ _ (by omega : j + 1 < n - 1),
      quotientCoeff_step poly z j (by omega)]
  · simp only [KZGFK.openProof]
    rw [if_pos (by omega : 2 ≤ poly.length)]
    have hq : ((List.range (poly.length - 1)).map
        (quotientCoeff poly z)).length = n - 1 := by simp [hp]
    rw [if_pos (by rw [hq, hl1]; omega : ((List.range (poly.length - 1)).map
        (quotientCoeff poly z)).length ≤ fk.tau_powers_g1.length), hq]

/-- Claim C1: for every domain size `n` that is a power of two and at least 2,
against an SRS produced by `setup(n)` whose Domain is a genuine evaluation
domain of size `n` (its root is a primitive `n`-th root of unity and its
stored inverses are correct), for every vector `v` of `n` scalars and every
index below `n`, verifying the genuine tuple succeeds:
`verify(i, v[i], commit(v), open(v, i))` returns `true`. -/
theorem kzgfk_round_trip_valid
    (domainNew : ℕ → Option (BLS12381Domain F)) (tau : F) (n : ℕ)
    (fk : KZGFK F) (h : KZGFK.new domainNew tau n = some fk)
    (hpow : ∃ k, n = 2 ^ k) (hn : 2 ≤ n)
    (hdn : fk.domain.n = n)
    (hω1 : fk.domain.ω ^ n = 1)
    (hω2 : ∀ m, m < n → 0 < m → fk.domain.ω ^ m ≠ 1)
    (hwi : fk.domain.ω * fk.domain.ωInv = 1)
    (hni : (n : F) * fk.domain.nInv = 1)
    (v : List F) (hv : v.length = n) (index : ℕ) (hidx : index < n) :
    ∃ c w, fk.commit v = some c ∧ fk.openProof v index = some w ∧
      fk.verify index (v.getD index 0) c w = some true := by
  obtain ⟨-, h1, h2⟩ := new_inv domainNew tau n fk h
  have hp : (fk.domain.ifft v).length = n := by rw [ifft_length, hv]
  set poly := fk.domain.ifft v with hpoly
  set z := fk.domain.element index with hz
  have hc : fk.commit v = some (evalPoly poly tau) := by
    rw [KZGFK.commit, ← hpoly, msm,
      if_pos (by rw [hp, h1, iterateTake_length] :
        poly.length = fk.tau_powers_g1.length),
      h1, msmSum_iterateTake tau poly (g1Gen F) n hp, g1Gen, one_mul]
  have hsl : (suffixEvals z (poly.drop 1)).length = n - 1 := by
    rw [suffixEvals_length, List.length_drop, hp]
  have ho : fk.openProof v index =
      some (evalPoly (suffixEvals z (poly.drop 1)) tau) := by
    simp only [KZGFK.openProof, ← hpoly, ← hz]
    rw [if_pos (by omega : 2 ≤ poly.length)]
    have hq : ((List.range (poly.length - 1)).map
        (quotientCoeff poly z)).length = poly.length - 1 := by simp
    rw [if_pos (by rw [hq, h1, iterateTake_length]; omega :
      ((List.range (poly.length - 1)).map (quotientCoeff poly z)).length ≤
        fk.tau_powers_g1.length)]
    rw [hq, h1, iterateTake_take _ n (poly.length - 1) _ (by omega),
      quotientList_eq_suffixEvals poly z, msm,
      if_pos (by rw [hsl, iterateTake_length, hp] :
        (suffixEvals z (poly.drop 1)).length =
          (iterateTake (fun g => g * tau) (g1Gen F) (poly.length - 1)).length),
      hp, msmSum_iterateTake tau _ (g1Gen F) (n - 1) hsl, g1Gen, one_mul]
  have hvz : evalPoly poly z = v.getD index 0 := by
    rw [hz, BLS12381Domain.element]
    refine ifft_interpolates fk.domain v index ?_ ?_ hwi ?_ ?_
    · rw [hv]; exact hω1
    · rw [hv]; exact hω2
    · rw [hv]; exact hni
    · omega
  have hkey : evalPoly poly tau - v.getD index 0 =
      evalPoly (suffixEvals z (poly.drop 1)) tau * (tau - z) := by
    have hs := suffixEvals_mul_sub tau z (poly.drop 1)
    have het : evalPoly poly tau =
        poly.getD 0 0 + tau * evalPoly (poly.drop 1) tau := by
      have hd0 := evalPoly_drop poly 0 tau
      rwa [List.drop_zero] at hd0
    have hez : evalPoly poly z =
        poly.getD 0 0 + z * evalPoly (poly.drop 1) z := by
      have hd0 := evalPoly_drop poly 0 z
      rwa [List.drop_zero] at hd0
    rw [← hvz, het, hez]
    linear_combination -hs
  refine ⟨evalPoly poly tau, evalPoly (suffixEvals z (poly.drop 1)) tau,
    hc, ho, ?_⟩
  rw [KZGFK.verify, ← hz,
    if_pos (⟨by rw [h1, iterateTake_length]; omega,
      by rw [h2, iterateTake_length]; omega⟩ :
      1 ≤ fk.tau_powers_g1.length ∧ 2 ≤ fk.tau_powers_g2.length)]
  simp only [Option.some_inj, decide_eq_true_eq]
  rw [h1, h2, iterateTake_getD tau n 0 _ (by omega),
    iterateTake_getD tau n 1 _ (by omega), iterateTake_getD tau n 0 _ (by omega)]
  simp only [g1Gen, g2Gen, gtPairing, pow_zero, pow_one, mul_one, one_mul]
  linear_combination hkey

theorem kzgfk_round_trip_valid_witness :
    (KZGFK.new domainNewFive 3 4 = some fkFour) ∧
    (∃ c w, fkFour.commit [1, 2, 3, 4] = some c ∧
      fkFour.openProof [1, 2, 3, 4] 3 = some w ∧
      fkFour.verify 3 ([1, 2, 3, 4].getD 3 0) c w = some true) :=
  ⟨by decide, kzgfk_round_trip_valid domainNewFive 3 4 fkFour (by decide)
    ⟨2, rfl⟩ (by omega) (by decide) (by decide) (by decide) (by decide)
    (by decide) [1, 2, 3, 4] rfl 3 (by omega)⟩

theorem kzgfk_verify_pairing_check_witness :
    (KZGFK.new domainNewFive 3 2 = some fkTwo) ∧
    (fkTwo.tau_powers_g2.getD 0 0 = g2Gen (ZMod 5) ∧
      (fkTwo.verify 0 1 2 3 = some true ↔
        gtPairing (2 - fkTwo.tau_powers_g1.getD 0 0 * 1)
            (fkTwo.tau_powers_g2.getD 0 0) =
          gtPairing 3 (fkTwo.tau_powers_g2.getD 1 0 -
            fkTwo.tau_powers_g2.getD 0 0 * fkTwo.domain.element 0))) :=
  ⟨by decide, kzgfk_verify_pairing_check domainNewFive 3 2 fkTwo (by decide)
    (by omega) 0 1 2 3⟩

theorem kzgfk_open_quotient_recurrence_witness :
    (KZGFK.new domainNewFive 3 2 = some fkTwo) ∧
    (∃ q : List (ZMod 5), q.length = 2 - 1 ∧
      q.getD (2 - 2) 0 = (fkTwo.domain.ifft [1, 2]).getD (2 - 1) 0 ∧
      (∀ j, j + 3 ≤ 2 → q.getD j 0 =
        (fkTwo.domain.ifft [1, 2]).getD (j + 1) 0 +
          q.getD (j + 1) 0 * fkTwo.domain.element 1) ∧
      fkTwo.openProof [1, 2] 1 = msm q (fkTwo.tau_powers_g1.take (2 - 1))) :=
  ⟨by decide, kzgfk_open_quotient_recurrence domainNewFive 3 2 fkTwo
    (by decide) (by omega) [1, 2] rfl 1 (by omega)⟩

theorem kzgfk_new_tau_powers_witness :
    (KZGFK.new domainNewFive 3 4 = some fkFour) ∧
    (fkFour.tau_powers_g1.length = 4 ∧ fkFour.tau_powers_g2.length = 4 ∧
      (∀ i, i < 4 → fkFour.tau_powers_g1.getD i 0 = g1Gen (ZMod 5) * 3 ^ i) ∧
      (∀ i, i < 4 → fkFour.tau_powers_g2.getD i 0 = g2Gen (ZMod 5) * 3 ^ i) ∧
      (0 < 4 → fkFour.tau_powers_g1.getD 0 0 = g1Gen (ZMod 5)) ∧
      (0 < 4 → fkFour.tau_powers_g2.getD 0 0 = g2Gen (ZMod 5)) ∧
      (∀ i, i + 1 < 4 → fkFour.tau_powers_g1.getD (i + 1) 0 =
        fkFour.tau_powers_g1.getD i 0 * 3) ∧
      (∀ i, i + 1 < 4 → fkFour.tau_powers_g2.getD (i + 1) 0 =
        fkFour.tau_powers_g2.getD i 0 * 3)) :=
  ⟨by decide, kzgfk_new_tau_powers domainNewFive 3 4 fkFour (by decide)⟩

theorem kzgfk_verify_total_on_valid_srs_witness :
    (1 ≤ fkTwo.tau_powers_g1.length ∧ 2 ≤ fkTwo.tau_powers_g2.length) ∧
    (∃ b, fkTwo.verify 5 1 2 3 = some b) :=
  ⟨⟨by decide, by decide⟩,
    kzgfk_verify_total_on_valid_srs fkTwo (by decide) (by decide) 5 1 2 3⟩

theorem kzgfk_precondition_failures_witness :
    (KZGFK.new domainNewFive 3 2 = some fkTwo ∧ fkTwo.domain.ω ^ 2 = 1) ∧
    ((∀ v : List (ZMod 5), v.length ≠ 2 → fkTwo.commit v = none) ∧
      (∀ v : List (ZMod 5), fkTwo.openProof v 2 = fkTwo.openProof v 0)) :=
  ⟨⟨by decide, by decide⟩,
    kzgfk_precondition_failures domainNewFive 3 2 fkTwo (by decide)
      (by decide)⟩

theorem kzgfk_commit_open_deterministic_witness :
    (fkTwo.domain = fkTwoAlt.domain ∧
      fkTwo.tau_powers_g1 = fkTwoAlt.tau_powers_g1) ∧
    ((∀ v : List (ZMod 5), fkTwo.commit v = fkTwoAlt.commit v) ∧
      (∀ (v : List (ZMod 5)) (index : ℕ),
        fkTwo.openProof v index = fkTwoAlt.openProof v index)) :=
  ⟨⟨by decide, by decide⟩,
    kzgfk_commit_open_deterministic fkTwo fkTwoAlt (by decide) (by decide)⟩

theorem kzgfk_open_size_one_vs_ge_two_witness :
    (KZGFK.new domainNewFive 3 1 = some fkOne) ∧
    ((1 = 1 → ∀ v : List (ZMod 5), v.length = 1 → ∀ index,
      fkOne.openProof v index = none) ∧
      (2 ≤ 1 → ∀ v : List (ZMod 5), v.length = 1 → ∀ index, index < 1 →
        (fkOne.openProof v index).isSome = true)) :=
  ⟨by decide, kzgfk_open_size_one_vs_ge_two domainNewFive 3 1 fkOne
    (by decide)⟩
